import Mathlib

/-!
Shallow embedding of the neuroevolution engine from the repository's
JavaScript source (classes `Neuron`, `Layer`, `Network`, `Genome`,
`Generation`, `Generations`, `BirdBrain`).

Modelling conventions:
* JavaScript numbers are modelled as `ℚ` (all claims are structural,
  ordering or exact-copy facts, never float-rounding facts).
* `Math.random()` is modelled as an ambient stream `rnd : ℕ → ℚ` together
  with an explicit index that is threaded through every operation in the
  same order in which the source draws random values.
* Operations that can throw in JavaScript (out-of-bounds element access
  followed by a property read, the unresolved `self` reference in
  `BirdBrain.nextGeneration`) or that can loop forever (the breeding
  `while (true)` loop, modelled with fuel) return `Except JsAbort`.
* The global mutable `options` object is modelled as an explicit `Opts`
  value passed to every function that reads it.  The injected functions
  `options.activation` and `options.randomClamped` are modelled as
  explicit parameters (`act : ℚ → ℚ` and the `rnd` stream:
  `randomClamped()` is `rnd ix * 2 - 1`).
-/

/-- Abnormal outcomes of running a piece of the JS code:
`typeErr` models a thrown `TypeError` (property access on `undefined`),
`refSelf` models the crash caused by the unresolved `self` reference in
`BirdBrain.nextGeneration`, and `fuel` models exhaustion of the fuel that
bounds the (possibly non-terminating) breeding `while (true)` loop. -/
inductive JsAbort : Type
  | typeErr : JsAbort
  | refSelf : JsAbort
  | fuel : JsAbort
  deriving DecidableEq, Repr

/-- `Math.round` as JS computes it on the nonnegative values that occur
here: round half up, `Math.round(x) = ⌊x + 0.5⌋`. -/
def jsRound (q : ℚ) : ℤ := ⌊q + 1/2⌋

/-- The serialized form of a network, as produced by `Network.getSave`:
neuron count per layer plus a flat list of every weight (layer order,
then neuron order, then weight order). -/
structure Save : Type where
  neurons : List ℕ
  weights : List ℚ
  deriving DecidableEq, Repr

/-- `class Neuron`: a transient `value` and a list of input `weights`. -/
structure Neuron : Type where
  value : ℚ
  weights : List ℚ
  deriving DecidableEq, Repr

/-- `class Layer`: an `id` and an ordered list of neurons. -/
structure Layer : Type where
  id : ℕ
  neurons : List Neuron
  deriving DecidableEq, Repr

/-- `class Network`: an ordered list of layers. -/
structure Network : Type where
  layers : List Layer
  deriving DecidableEq, Repr

/-- `class Genome`: a score together with a serialized network (the
`network` field of a genome always holds the serialized form in the
source: `networkScore` stores `network.getSave()`). -/
structure Genome : Type where
  score : ℚ
  network : Save
  deriving DecidableEq, Repr

/-- `class Generation`: an ordered list of genomes (the shared global
`options` object is passed explicitly to the methods that read it). -/
structure Generation : Type where
  genomes : List Genome
  deriving DecidableEq, Repr

/-- The global `options` object (its two injected functions,
`activation` and `randomClamped`, are modelled as explicit parameters of
the operations that call them). -/
structure Opts : Type where
  netInput : ℕ
  netHidden : List ℕ
  netOutput : ℕ
  population : ℕ
  elitism : ℚ
  randomBehaviour : ℚ
  mutationRate : ℚ
  mutationRange : ℚ
  historic : ℤ
  lowHistoric : Bool
  scoreSort : ℤ
  nbChild : ℤ
  deriving DecidableEq, Repr

/-! ### Network: construction, serialization, evaluation -/

/-- `Neuron.populate(nb)` as called during `perceptronGeneration`:
`nb` weights, each `options.randomClamped()` = `Math.random() * 2 - 1`.
Returns the weights and the next random index. -/
def populateWeights (rnd : ℕ → ℚ) (nb ix : ℕ) : List ℚ × ℕ :=
  ((List.range nb).map (fun j => rnd (ix + j) * 2 - 1), ix + nb)

/-- `Layer.populate(nbNeurons, nbInputs)` with random weights:
`nbNeurons` fresh neurons (`value = 0`), each with `nbInputs` weights
drawn from `randomClamped` in order. -/
def populateNeurons (rnd : ℕ → ℚ) : ℕ → ℕ → ℕ → List Neuron × ℕ
  | 0, _, ix => ([], ix)
  | c + 1, nbInputs, ix =>
    let (ws, ix1) := populateWeights rnd nbInputs ix
    let (rest, ix2) := populateNeurons rnd c nbInputs ix1
    (⟨0, ws⟩ :: rest, ix2)

/-- The hidden-layer loop of `Network.perceptronGeneration`: one layer per
entry of `hidden`, each populated with `hidden[i]` neurons of
`previousNeurons` inputs. Returns the layers, the final `previousNeurons`,
and the next random index; `idx` is the running layer id. -/
def buildHiddenLayers (rnd : ℕ → ℚ) :
    List ℕ → ℕ → ℕ → ℕ → List Layer × ℕ × ℕ
  | [], prev, _, ix => ([], prev, ix)
  | h :: hs, prev, idx, ix =>
    let (ns, ix1) := populateNeurons rnd h prev ix
    let (rest, prev2, ix2) := buildHiddenLayers rnd hs h (idx + 1) ix1
    (⟨idx, ns⟩ :: rest, prev2, ix2)

/-- `Network.perceptronGeneration(input, hidden, output)`: input layer
with zero-length weight vectors, then the hidden layers, then the output
layer, all weights drawn from `randomClamped` in source order. -/
def Network.perceptronGeneration (o : Opts) (rnd : ℕ → ℚ) (ix : ℕ) :
    Network × ℕ :=
  let (inputNeurons, ix0) := populateNeurons rnd o.netInput 0 ix
  let (hiddenLayers, prev, ix1) :=
    buildHiddenLayers rnd o.netHidden o.netInput 1 ix0
  let (outputNeurons, ix2) := populateNeurons rnd o.netOutput prev ix1
  (⟨⟨0, inputNeurons⟩ :: hiddenLayers ++ [⟨1 + o.netHidden.length, outputNeurons⟩]⟩,
    ix2)

/-- The flat weight list built by `Network.getSave`: all weights of all
neurons of all layers, in layer order, neuron order, weight order. -/
def flatWeights (layers : List Layer) : List ℚ :=
  (layers.map (fun l => (l.neurons.map Neuron.weights).flatten)).flatten

/-- `Network.getSave()`: per-layer neuron counts plus the flat weight
list. -/
def Network.getSave (n : Network) : Save :=
  ⟨n.layers.map (fun l => l.neurons.length), flatWeights n.layers⟩

/-- The neuron-building part of `Network.setSave`: `c` neurons, each
taking `prev` weights from the front of the flat list `ws` in order.
`Layer.populate` first fills the weights with `randomClamped()` draws,
but `setSave` immediately overwrites every one of them with
`save.weights[indexWeights++]`, so the draws never surface and are
elided here.  (When `ws` runs out JS would write `undefined` into the
remaining weight slots; every theorem below supplies enough weights, so
that degenerate case is never relied upon.) -/
def mkNeurons (prev : ℕ) : ℕ → List ℚ → List Neuron
  | 0, _ => []
  | c + 1, ws => ⟨0, ws.take prev⟩ :: mkNeurons prev c (ws.drop prev)

/-- The layer-building loop of `Network.setSave`: one layer per entry of
`save.neurons`, threading `previousNeurons` and consuming
`c * prev` weights per layer from the flat list. -/
def buildLayers : List ℕ → ℕ → ℕ → List ℚ → List Layer
  | [], _, _, _ => []
  | c :: cs, prev, idx, ws =>
    ⟨idx, mkNeurons prev c ws⟩ :: buildLayers cs c (idx + 1) (ws.drop (c * prev))

/-- `Network.setSave(save)`: rebuild the layers from the per-layer neuron
counts, assigning the flat weights in order. -/
def Network.setSave (s : Save) : Network :=
  ⟨buildLayers s.neurons 0 0 s.weights⟩

/-- The weighted sum in `Network.compute`: the loop runs over the
previous layer's neurons; the zip truncates at the shorter list exactly
as only `min` many products contribute for shape-correct networks. -/
def dot : List ℚ → List ℚ → ℚ
  | a :: as, b :: bs => a * b + dot as bs
  | _, _ => 0

/-- The input-setting loop of `Network.compute`: input `i` overwrites
neuron `i`'s value when that neuron exists (`if (this.layers[0] &&
this.layers[0].neurons[i])`); extra inputs are silently skipped and
missing inputs leave the old neuron values in place. -/
def overwriteValues : List Neuron → List ℚ → List ℚ
  | [], _ => []
  | n :: ns, [] => n.value :: overwriteValues ns []
  | _ :: ns, x :: xs => x :: overwriteValues ns xs

/-- One non-input layer of `Network.compute`: every neuron's new value is
`activation(Σ prevValue * weight)`. -/
def layerValues (act : ℚ → ℚ) (prev : List ℚ) (l : Layer) : List ℚ :=
  l.neurons.map (fun nr => act (dot prev nr.weights))

/-- `Network.compute(inputs)`: set the input layer's values from
`inputs`, feed forward through the remaining layers, return the last
layer's values.  Modelled as a pure function returning the outputs (the
JS method also caches the values in the neurons; no claim depends on the
cached values). -/
def Network.compute (act : ℚ → ℚ) (n : Network) (inputs : List ℚ) : List ℚ :=
  match n.layers with
  | [] => []
  | l0 :: rest => rest.foldl (layerValues act) (overwriteValues l0.neurons inputs)

/-- Number of neurons in the input layer (0 for an empty network). -/
def inputSize (n : Network) : ℕ := ((n.layers.headD ⟨0, []⟩).neurons).length

/-- Per-layer neuron counts of a network. -/
def neuronCounts (n : Network) : List ℕ := n.layers.map (fun l => l.neurons.length)

/-- The per-layer, per-neuron weight lists of a network (everything
`compute` reads besides the input values). -/
def skeleton (n : Network) : List (List (List ℚ)) :=
  n.layers.map (fun l => l.neurons.map Neuron.weights)

/-- The chain condition of a layered feed-forward net: every neuron of a
layer has exactly one weight per neuron of the previous layer. -/
def chainFrom : ℕ → List Layer → Bool
  | _, [] => true
  | prev, l :: ls =>
    l.neurons.all (fun nr => nr.weights.length == prev) && chainFrom l.neurons.length ls

/-- A network built from a valid topology: every layer satisfies the
chain condition starting from a previous-layer size of 0, so the input
layer's neurons have zero-length weight lists and each later layer has
one weight per neuron of the layer before it. -/
def validShape (n : Network) : Bool := chainFrom 0 n.layers

/-- Total number of weights implied by per-layer neuron counts when the
previous layer has `prev` neurons: `Σ size(L) * size(L-1)`. -/
def totalWeights : List ℕ → ℕ → ℕ
  | [], _ => 0
  | c :: cs, prev => c * prev + totalWeights cs c

/-! ### Generation: ranked insertion and breeding -/

/-- The break condition of the insertion scan in `Generation.addGenome`:
in descending mode (`scoreSort < 0`) the new genome beats an entry iff
its score is strictly greater, in ascending mode iff strictly smaller.
Ties never "beat", so equals are passed over and the new genome lands
after them. -/
def beats (ss : ℤ) (g x : Genome) : Bool :=
  if ss < 0 then decide (x.score < g.score) else decide (g.score < x.score)

/-- `Generation.addGenome(genome)`: scan from the front for the first
entry the new genome beats and splice it in right there; append if none
is beaten. -/
def Generation.addGenome (ss : ℤ) : List Genome → Genome → List Genome
  | [], g => [g]
  | x :: xs, g => if beats ss g x then g :: x :: xs else x :: Generation.addGenome ss xs g

/-- The crossover loop of `Generation.breed`: the child starts as a deep
clone of parent 1; for each index of parent 2's flat weight list, with
`Math.random() <= 0.5` the weight is replaced by parent 2's.  One draw
per index, in order.  (If the parents' weight lists had different
lengths JS would extend or keep the tail; every theorem below is about
equally shaped parents, where the two iterations coincide.) -/
def crossWeights (rnd : ℕ → ℚ) : List ℚ → List ℚ → ℕ → List ℚ × ℕ
  | w1, [], ix => (w1, ix)
  | [], _, ix => ([], ix)
  | a :: as, b :: bs, ix =>
    let (rest, ix1) := crossWeights rnd as bs (ix + 1)
    ((if rnd ix ≤ 1/2 then b else a) :: rest, ix1)

/-- The mutation loop of `Generation.breed`: for each weight, with
`Math.random() <= options.mutationRate` add
`Math.random() * mutationRange * 2 - mutationRange`.  The decision draw
and (only when taken) the perturbation draw are consumed in order. -/
def mutWeights (o : Opts) (rnd : ℕ → ℚ) : List ℚ → ℕ → List ℚ × ℕ
  | [], ix => ([], ix)
  | w :: ws, ix =>
    if rnd ix ≤ o.mutationRate then
      let (rest, ix1) := mutWeights o rnd ws (ix + 2)
      ((w + (rnd (ix + 1) * o.mutationRange * 2 - o.mutationRange)) :: rest, ix1)
    else
      let (rest, ix1) := mutWeights o rnd ws (ix + 1)
      (w :: rest, ix1)

/-- One child of `Generation.breed`: deep clone of `g1` (score included),
crossover against `g2`'s weights, then mutation. -/
def breedChild (o : Opts) (rnd : ℕ → ℚ) (g1 g2 : Genome) (ix : ℕ) : Genome × ℕ :=
  let (cw, ix1) := crossWeights rnd g1.network.weights g2.network.weights ix
  let (mw, ix2) := mutWeights o rnd cw ix1
  (⟨g1.score, ⟨g1.network.neurons, mw⟩⟩, ix2)

/-- `Generation.breed(g1, g2, nbchildren)`: `nbchildren` independent
children, randomness consumed sequentially child after child. -/
def Generation.breed (o : Opts) (rnd : ℕ → ℚ) (g1 g2 : Genome) :
    ℕ → ℕ → List Genome × ℕ
  | 0, ix => ([], ix)
  | nb + 1, ix =>
    let (c, ix1) := breedChild o rnd g1 g2 ix
    let (rest, ix2) := Generation.breed o rnd g1 g2 nb ix1
    (c :: rest, ix2)

/-! ### Generation.generateNextGeneration: the three stages -/

/-- Elitism stage: `for (i = 0; i < round(elitism * population); i++)
if (nexts.length < population) nexts.push(clone(genomes[i].network))`.
`k` counts the remaining iterations; reading past the end of the genome
list throws in JS (`.network` of `undefined`), modelled by `typeErr`.
The clone is a plain value here. -/
def eliteLoop (gs : List Genome) (pop : ℕ) :
    ℕ → ℕ → List Save → Except JsAbort (List Save)
  | 0, _, acc => .ok acc
  | k + 1, i, acc =>
    if acc.length < pop then
      match gs.get? i with
      | none => .error .typeErr
      | some g => eliteLoop gs pop k (i + 1) (acc ++ [g.network])
    else eliteLoop gs pop k (i + 1) acc

/-- Random-behaviour stage: each iteration deep-clones genome 0's network,
replaces every weight by a fresh `randomClamped()` draw (draws happen
before the length guard, so they are consumed even when the push is
skipped), and pushes it while the population target is not reached.
`genomes[0]` on an empty generation throws. -/
def randomLoop (gs : List Genome) (pop : ℕ) (rnd : ℕ → ℚ) :
    ℕ → List Save → ℕ → Except JsAbort (List Save × ℕ)
  | 0, acc, ix => .ok (acc, ix)
  | k + 1, acc, ix =>
    match gs.head? with
    | none => .error .typeErr
    | some g0 =>
      let (ws, ix1) := populateWeights rnd g0.network.weights.length ix
      let nw : Save := ⟨g0.network.neurons, ws⟩
      if acc.length < pop then randomLoop gs pop rnd k (acc ++ [nw]) ix1
      else randomLoop gs pop rnd k acc ix1

/-- The child-pushing inner loop of the breeding stage: push each child's
network and return the accumulated population as soon as its length
reaches `population`. `.inl` is the early return, `.inr` continues. -/
def pushChildren (pop : ℕ) : List Genome → List Save → List Save ⊕ List Save
  | [], acc => .inr acc
  | c :: cs, acc =>
    let acc1 := acc ++ [c.network]
    if pop ≤ acc1.length then .inl acc1 else pushChildren pop cs acc1

/-- The `for (i = 0; i < max; i++)` loop of the breeding stage: breed
`genomes[i]` with `genomes[max]` (`nbChild > 0 ? nbChild : 1` children)
and push the children's networks. `k` counts the remaining iterations
(`max - i`). -/
def innerFor (o : Opts) (rnd : ℕ → ℚ) (gs : List Genome) (pop mx : ℕ) :
    ℕ → ℕ → List Save → ℕ → Except JsAbort (List Save ⊕ (List Save × ℕ))
  | 0, _, acc, ix => .ok (.inr (acc, ix))
  | k + 1, i, acc, ix =>
    match gs.get? i, gs.get? mx with
    | some gi, some gmx =>
      let cnt : ℕ := if 0 < o.nbChild then o.nbChild.toNat else 1
      let (children, ix1) := Generation.breed o rnd gi gmx cnt ix
      match pushChildren pop children acc with
      | .inl r => .ok (.inl r)
      | .inr acc1 => innerFor o rnd gs pop mx k (i + 1) acc1 ix1
    | _, _ => .error .typeErr

/-- The breeding `while (true)` loop: run the inner loop for the current
`max`, then `max++`, wrapping `max` back to 0 once it reaches
`genomes.length - 1`.  The loop can run forever (it only exits through
the early return inside `pushChildren`), hence the fuel. -/
def breedLoop (o : Opts) (rnd : ℕ → ℚ) (gs : List Genome) (pop : ℕ) :
    ℕ → ℕ → List Save → ℕ → Except JsAbort (List Save)
  | 0, _, _, _ => .error .fuel
  | fuel + 1, mx, acc, ix =>
    match innerFor o rnd gs pop mx mx 0 acc ix with
    | .error e => .error e
    | .ok (.inl r) => .ok r
    | .ok (.inr (acc1, ix1)) =>
      breedLoop o rnd gs pop fuel
        (if gs.length - 1 ≤ mx + 1 then 0 else mx + 1) acc1 ix1

/-- `Generation.generateNextGeneration()`: elitism, then random
injection, then breeding until the population target is reached. -/
def Generation.generateNextGeneration (o : Opts) (rnd : ℕ → ℚ)
    (gs : List Genome) (fuel : ℕ) : Except JsAbort (List Save) :=
  match eliteLoop gs o.population (jsRound (o.elitism * o.population)).toNat 0 [] with
  | .error e => .error e
  | .ok s1 =>
    match randomLoop gs o.population rnd
        (jsRound (o.randomBehaviour * o.population)).toNat s1 0 with
    | .error e => .error e
    | .ok (s2, ix) => breedLoop o rnd gs o.population fuel 0 s2 ix

/-! ### Generations and BirdBrain -/

/-- The network-building loop of `Generations.firstGeneration`:
`population` fresh perceptrons, serialized in order. -/
def firstGenLoop (o : Opts) (rnd : ℕ → ℚ) : ℕ → ℕ → List Save → List Save × ℕ
  | 0, ix, acc => (acc, ix)
  | k + 1, ix, acc =>
    let (n, ix1) := Network.perceptronGeneration o rnd ix
    firstGenLoop o rnd k ix1 (acc ++ [n.getSave])

/-- `Generations.firstGeneration()`: build the saves and push one fresh
empty generation. -/
def Generations.firstGeneration (o : Opts) (rnd : ℕ → ℚ)
    (gens : List Generation) : List Save × List Generation :=
  ((firstGenLoop o rnd o.population 0 []).1, gens ++ [⟨[]⟩])

/-- `Generations.nextGeneration()`: returns `false` (here `none`) and
leaves the state untouched when no generation exists; otherwise runs
`generateNextGeneration` on the last generation and pushes a fresh empty
generation. -/
def Generations.nextGeneration (o : Opts) (rnd : ℕ → ℚ) (fuel : ℕ)
    (gens : List Generation) :
    Except JsAbort (Option (List Save) × List Generation) :=
  match gens.getLast? with
  | none => .ok (none, gens)
  | some lastGen =>
    match Generation.generateNextGeneration o rnd lastGen.genomes fuel with
    | .error e => .error e
    | .ok saves => .ok (some saves, gens ++ [⟨[]⟩])

/-- `Generations.addGenome(genome)`: returns `false` (here `none`) and
leaves the state untouched when no generation exists; otherwise inserts
into the last generation. -/
def Generations.addGenome (o : Opts) (g : Genome) (gens : List Generation) :
    Option Unit × List Generation :=
  match gens.getLast? with
  | none => (none, gens)
  | some lastGen =>
    (some (),
      gens.dropLast ++ [⟨Generation.addGenome o.scoreSort lastGen.genomes g⟩])

/-- The first half of `BirdBrain.nextGeneration`: produce the serialized
networks (first generation when the history is empty, otherwise
delegate to `Generations.nextGeneration`).  A `false` return from
`Generations.nextGeneration` would make the JS `for..in` iterate zero
times, i.e. yield no networks. -/
def produceSaves (o : Opts) (rnd : ℕ → ℚ) (fuel : ℕ)
    (gens : List Generation) : Except JsAbort (List Save × List Generation) :=
  if gens.isEmpty then .ok (Generations.firstGeneration o rnd gens)
  else
    match Generations.nextGeneration o rnd fuel gens with
    | .error e => .error e
    | .ok (osaves, gens1) => .ok (osaves.getD [], gens1)

/-- The retention trim at the end of `BirdBrain.nextGeneration`: when
`historic !== -1` and the history exceeds `historic + 1` generations,
splice the surplus off the front. -/
def trimHistoric (o : Opts) (gens : List Generation) : List Generation :=
  if o.historic ≠ -1 ∧ (o.historic + 1 : ℤ) < gens.length then
    gens.drop ((gens.length - (o.historic + 1) : ℤ)).toNat
  else gens

/-- `BirdBrain.nextGeneration()`: produce the saves, wrap each into a
live `Network` via `setSave`, then run the `lowHistoric` block and the
retention trim.  The `lowHistoric` block reads
`self.generations.generations.length`, but `self` is not bound in that
scope (in a browser `window.self.generations` is `undefined`), so
whenever the block's guard `length >= 2` is reached the call throws:
modelled by `JsAbort.refSelf`. -/
def BirdBrain.nextGeneration (o : Opts) (rnd : ℕ → ℚ) (fuel : ℕ)
    (gens : List Generation) :
    Except JsAbort (List Network × List Generation) :=
  match produceSaves o rnd fuel gens with
  | .error e => .error e
  | .ok (saves, gens1) =>
    if o.lowHistoric ∧ 2 ≤ gens1.length then .error .refSelf
    else .ok (saves.map Network.setSave, trimHistoric o gens1)

/-! ### Claim theorems: error reporting and divergence -/

/-- C9: with an empty history, `Generations.nextGeneration` and
`Generations.addGenome` both report failure (`false` in JS, `none`
here) and leave the state entirely unchanged: no generation is created
and no genome is stored. -/
theorem empty_history_reports_failure (o : Opts) (rnd : ℕ → ℚ) (fuel : ℕ)
    (g : Genome) :
    Generations.nextGeneration o rnd fuel [] = .ok (none, []) ∧
    Generations.addGenome o g [] = (none, []) :=
  ⟨rfl, rfl⟩

/-- C5: evaluating the code at the failing input.  With `lowHistoric`
set and a history that reaches length 2 (one fully scored generation of
three genomes; producing the next population pushes a second one),
`BirdBrain.nextGeneration` does not strip the old networks: it throws,
because the stripping block reads `self.generations.generations.length`
and `self` is not bound in that scope (in a browser
`window.self.generations` is `undefined`). -/
theorem lowHistoric_strip_crashes :
    BirdBrain.nextGeneration ⟨1, [], 1, 3, 0, 0, 0, 0, -1, true, -1, 1⟩
      (fun _ => 0) 20
      [⟨[⟨3, ⟨[1], []⟩⟩, ⟨2, ⟨[1], []⟩⟩, ⟨1, ⟨[1], []⟩⟩]⟩]
      = .error .refSelf := by
  norm_num [BirdBrain.nextGeneration, produceSaves, Generations.nextGeneration, jsRound,
    Generation.generateNextGeneration, eliteLoop, randomLoop, breedLoop, innerFor,
    pushChildren, Generation.breed, breedChild, crossWeights, mutWeights, populateWeights,
    trimHistoric]

/-- C2: evaluating the code at the failing input.  For a generation
holding exactly one genome (population 1, default elitism and
random-behaviour rates 0.2, whose rounded shares are both 0),
`generateNextGeneration` never returns: the breeding cursor `max` is
reset to 0 every time it reaches `genomes.length - 1 = 0`, so no pair is
ever formed and the `while (true)` loop makes no progress.  In the
fuel-indexed model: every fuel amount is exhausted. -/
theorem generateNextGeneration_singleton_diverges (rnd : ℕ → ℚ) :
    ∀ fuel : ℕ,
      Generation.generateNextGeneration ⟨1, [], 1, 1, 1/5, 1/5, 0, 0, -1, false, -1, 1⟩
        rnd [⟨1, ⟨[1], []⟩⟩] fuel = .error .fuel := by
  have key : ∀ fuel ix : ℕ,
      breedLoop ⟨1, [], 1, 1, 1/5, 1/5, 0, 0, -1, false, -1, 1⟩ rnd
        [⟨1, ⟨[1], []⟩⟩] 1 fuel 0 [] ix = .error .fuel := by
    intro fuel
    induction fuel with
    | zero => intro ix; rfl
    | succ n ih => intro ix; simpa [breedLoop, innerFor] using ih ix
  intro fuel
  norm_num [Generation.generateNextGeneration, jsRound, eliteLoop, randomLoop, key]

/-- C1, counterexample: a configuration with
`elitism + randomBehaviour = 1 + 0 ≤ 1` and a non-empty fully-scored
generation (3 genomes, population 3) for which `generateNextGeneration`
returns 4 networks: the elitism stage already fills the population and
the breeding stage still pushes one more child before its length check
runs. -/
theorem generateNextGeneration_overshoot_cx :
    ((1 : ℚ) + 0 ≤ 1) ∧
    ([⟨3, ⟨[1], []⟩⟩, ⟨2, ⟨[1], []⟩⟩, ⟨1, ⟨[1], []⟩⟩] : List Genome).length = 3 ∧
    Generation.generateNextGeneration ⟨1, [1], 1, 3, 1, 0, 0, 0, -1, false, -1, 1⟩
      (fun _ => 0) [⟨3, ⟨[1], []⟩⟩, ⟨2, ⟨[1], []⟩⟩, ⟨1, ⟨[1], []⟩⟩] 20
      = .ok [⟨[1], []⟩, ⟨[1], []⟩, ⟨[1], []⟩, ⟨[1], []⟩] ∧
    ([⟨[1], []⟩, ⟨[1], []⟩, ⟨[1], []⟩, ⟨[1], []⟩] : List Save).length ≠ 3 := by
  refine ⟨by norm_num, rfl, ?_, by norm_num⟩
  norm_num [Generation.generateNextGeneration, jsRound, eliteLoop, randomLoop, breedLoop,
    innerFor, pushChildren, Generation.breed, breedChild, crossWeights, mutWeights,
    populateWeights]

/-- C7, counterexample: a serialized save whose flat weight count (2)
does not match the total implied by `neuronsPerLayer = [1, 1]`
(`Σ size(L) * size(L-1) = 1`), yet `setSave` completes without any
reported error and fully mutates the network (the excess weight is
silently dropped); and `compute` called with an input vector of length 2
on that 1-input network completes as well, silently ignoring the extra
input (output `activation(3 * 5)` with identity activation). -/
theorem setSave_compute_no_error_cx :
    totalWeights [1, 1] 0 = 1 ∧
    Network.setSave ⟨[1, 1], [5, 9]⟩ = ⟨[⟨0, [⟨0, []⟩]⟩, ⟨1, [⟨0, [5]⟩]⟩]⟩ ∧
    inputSize (Network.setSave ⟨[1, 1], [5, 9]⟩) = 1 ∧
    Network.compute (fun x => x) (Network.setSave ⟨[1, 1], [5, 9]⟩) [3, 4] = [15] := by
  refine ⟨rfl, ?_, rfl, ?_⟩ <;>
    norm_num [Network.compute, Network.setSave, buildLayers, mkNeurons, overwriteValues,
      layerValues, dot]

/-- C8, counterexample: with `mutationRate = 0` a child's weight can
still be altered.  The source tests `Math.random() <= mutationRate`, and
`Math.random()` can return exactly 0: with every draw equal to 0,
parents whose single weight is 0, and `mutationRange = 1`, the bred
child's weight is `0 + (0 * 1 * 2 - 1) = -1`, which is neither parent's
value at that position. -/
theorem breed_zero_rate_mutates_cx :
    (⟨1, [], 1, 1, 0, 0, 0, 1, -1, false, -1, 1⟩ : Opts).mutationRate = 0 ∧
    (Generation.breed ⟨1, [], 1, 1, 0, 0, 0, 1, -1, false, -1, 1⟩ (fun _ => 0)
        ⟨0, ⟨[1, 1], [0]⟩⟩ ⟨0, ⟨[1, 1], [0]⟩⟩ 1 0).1
      = [⟨0, ⟨[1, 1], [-1]⟩⟩] ∧
    ((-1 : ℚ)) ≠ 0 := by
  refine ⟨rfl, ?_, by norm_num⟩
  norm_num [Generation.breed, breedChild, crossWeights, mutWeights]

/-! ### Breeding lemmas -/

/-- Crossover preserves the weight-vector length of parent 1 (the child
starts as a clone of parent 1 and only has entries replaced). -/
theorem crossWeights_length (rnd : ℕ → ℚ) (w1 w2 : List ℚ) (ix : ℕ) :
    (crossWeights rnd w1 w2 ix).1.length = w1.length := by
  induction w1 generalizing w2 ix with
  | nil => cases w2 <;> simp [crossWeights]
  | cons a as ih =>
    cases w2 with
    | nil => simp [crossWeights]
    | cons b bs => simpa [crossWeights] using ih bs (ix + 1)

/-- Every entry of the crossed weight list is parent 1's or parent 2's
entry at the same index (out-of-range positions default to 0 on both
sides). -/
theorem crossWeights_getD (rnd : ℕ → ℚ) (w1 w2 : List ℚ) (ix j : ℕ) :
    (crossWeights rnd w1 w2 ix).1.getD j 0 = w1.getD j 0 ∨
    (crossWeights rnd w1 w2 ix).1.getD j 0 = w2.getD j 0 := by
  induction w1 generalizing w2 ix j with
  | nil => cases w2 <;> simp [crossWeights]
  | cons a as ih =>
    cases w2 with
    | nil => simp [crossWeights]
    | cons b bs =>
      match j with
      | 0 =>
        have hstep : (crossWeights rnd (a :: as) (b :: bs) ix).1.getD 0 0
            = if rnd ix ≤ 1/2 then b else a := rfl
        rw [hstep]
        by_cases h : rnd ix ≤ 1/2
        · rw [if_pos h]; right; rfl
        · rw [if_neg h]; left; rfl
      | j + 1 =>
        simpa [crossWeights] using ih bs (ix + 1) j

/-- Mutation preserves the weight-vector length. -/
theorem mutWeights_length (o : Opts) (rnd : ℕ → ℚ) (ws : List ℚ) (ix : ℕ) :
    (mutWeights o rnd ws ix).1.length = ws.length := by
  induction ws generalizing ix with
  | nil => simp [mutWeights]
  | cons w rest ih =>
    by_cases h : rnd ix ≤ o.mutationRate <;>
      simp [mutWeights, h, ih]

/-- Mutation moves every entry by at most `mutationRange` when the
random draws lie in `[0, 1]` and the range is nonnegative. -/
theorem mutWeights_getD_bounds (o : Opts) (rnd : ℕ → ℚ)
    (hrange : 0 ≤ o.mutationRange) (hrnd : ∀ k, 0 ≤ rnd k ∧ rnd k ≤ 1)
    (ws : List ℚ) (ix j : ℕ) :
    ws.getD j 0 - o.mutationRange ≤ (mutWeights o rnd ws ix).1.getD j 0 ∧
    (mutWeights o rnd ws ix).1.getD j 0 ≤ ws.getD j 0 + o.mutationRange := by
  induction ws generalizing ix j with
  | nil =>
    simp only [mutWeights, List.getD_nil]
    constructor <;> linarith
  | cons w rest ih =>
    by_cases h : rnd ix ≤ o.mutationRate
    · cases j with
      | zero =>
        have h0 := (hrnd (ix + 1)).1
        have h1 := (hrnd (ix + 1)).2
        have hstep : (mutWeights o rnd (w :: rest) ix).1.getD 0 0
            = w + (rnd (ix + 1) * o.mutationRange * 2 - o.mutationRange) := by
          simp [mutWeights, if_pos h]
        rw [hstep, List.getD_cons_zero]
        constructor <;> nlinarith
      | succ j =>
        have hstep : (mutWeights o rnd (w :: rest) ix).1.getD (j + 1) 0
            = (mutWeights o rnd rest (ix + 2)).1.getD j 0 := by
          simp [mutWeights, if_pos h]
        rw [hstep, List.getD_cons_succ]
        exact ih (ix + 2) j
    · cases j with
      | zero =>
        have hstep : (mutWeights o rnd (w :: rest) ix).1.getD 0 0 = w := by
          simp [mutWeights, if_neg h]
        rw [hstep, List.getD_cons_zero]
        constructor <;> linarith
      | succ j =>
        have hstep : (mutWeights o rnd (w :: rest) ix).1.getD (j + 1) 0
            = (mutWeights o rnd rest (ix + 1)).1.getD j 0 := by
          simp [mutWeights, if_neg h]
        rw [hstep, List.getD_cons_succ]
        exact ih (ix + 1) j

/-- When every decision draw exceeds the mutation rate, mutation is the
identity. -/
theorem mutWeights_eq_of_lt (o : Opts) (rnd : ℕ → ℚ)
    (h : ∀ k, o.mutationRate < rnd k) (ws : List ℚ) (ix : ℕ) :
    (mutWeights o rnd ws ix).1 = ws := by
  induction ws generalizing ix with
  | nil => simp [mutWeights]
  | cons w rest ih =>
    simp [mutWeights, if_neg (not_le.mpr (h ix)), ih]

/-- Every member of the list produced by `Generation.breed` is a
`breedChild` result at some random index. -/
theorem breed_mem_child (o : Opts) (rnd : ℕ → ℚ) (g1 g2 : Genome) (nb ix : ℕ) :
    ∀ c ∈ (Generation.breed o rnd g1 g2 nb ix).1,
      ∃ k, c = (breedChild o rnd g1 g2 k).1 := by
  induction nb generalizing ix with
  | zero => simp [Generation.breed]
  | succ n ih =>
    intro c hc
    have hstep : (Generation.breed o rnd g1 g2 (n + 1) ix).1 =
        (breedChild o rnd g1 g2 ix).1 ::
          (Generation.breed o rnd g1 g2 n (breedChild o rnd g1 g2 ix).2).1 := rfl
    rw [hstep] at hc
    rcases List.mem_cons.mp hc with h | h
    · exact ⟨ix, h⟩
    · exact ih _ c h

/-- C10: breeding preserves topology.  For parents with identical
`neuronsPerLayer` descriptors and equal-length flat weight lists, every
child's descriptor is identical to parent 1's and its flat weight list
has the same length. -/
theorem breed_preserves_topology (o : Opts) (rnd : ℕ → ℚ) (g1 g2 : Genome)
    (nb ix : ℕ)
    (_hn : g1.network.neurons = g2.network.neurons)
    (_hw : g1.network.weights.length = g2.network.weights.length) :
    ∀ c ∈ (Generation.breed o rnd g1 g2 nb ix).1,
      c.network.neurons = g1.network.neurons ∧
      c.network.weights.length = g1.network.weights.length := by
  intro c hc
  obtain ⟨k, hk⟩ := breed_mem_child o rnd g1 g2 nb ix c hc
  subst hk
  refine ⟨rfl, ?_⟩
  show (mutWeights o rnd (crossWeights rnd g1.network.weights g2.network.weights k).1
      (crossWeights rnd g1.network.weights g2.network.weights k).2).1.length = _
  rw [mutWeights_length, crossWeights_length]

/-- Witness for C10 at a concrete input: the single child bred (with
all draws 0, mutation range 0) from two equally shaped parents keeps the
descriptor `[1, 1]` and a one-entry weight list. -/
theorem breed_preserves_topology_witness :
    (⟨0, ⟨[1, 1], [0]⟩⟩ : Genome).network.neurons = [1, 1] ∧
    (⟨0, ⟨[1, 1], [0]⟩⟩ : Genome).network.weights.length = 1 := by
  have h := breed_preserves_topology ⟨1, [], 1, 1, 0, 0, 0, 0, -1, false, -1, 1⟩
      (fun _ => 0) ⟨0, ⟨[1, 1], [0]⟩⟩ ⟨0, ⟨[1, 1], [0]⟩⟩ 1 0 rfl rfl
      ⟨0, ⟨[1, 1], [0]⟩⟩
      (by norm_num [Generation.breed, breedChild, crossWeights, mutWeights])
  exact h

/-- C8, amended: for equally shaped parents, nonnegative mutation range
and draws in `[0, 1]`, every weight of every bred child lies within
`mutationRange` of the post-crossover value, which is parent 1's or
parent 2's weight at that position; and whenever every mutation-decision
draw strictly exceeds `mutationRate` (for `mutationRate = 0`: no draw is
exactly 0 — the source tests `draw <= mutationRate`), every child weight
is exactly parent 1's or parent 2's value at that position. -/
theorem breed_mutation_bounds (o : Opts) (rnd : ℕ → ℚ) (g1 g2 : Genome)
    (nb ix : ℕ)
    (_hw : g1.network.weights.length = g2.network.weights.length)
    (hrange : 0 ≤ o.mutationRange) :
    ((∀ k, 0 ≤ rnd k ∧ rnd k ≤ 1) →
      ∀ c ∈ (Generation.breed o rnd g1 g2 nb ix).1, ∀ j : ℕ,
        ∃ v, (v = g1.network.weights.getD j 0 ∨ v = g2.network.weights.getD j 0) ∧
          v - o.mutationRange ≤ c.network.weights.getD j 0 ∧
          c.network.weights.getD j 0 ≤ v + o.mutationRange) ∧
    ((∀ k, o.mutationRate < rnd k) →
      ∀ c ∈ (Generation.breed o rnd g1 g2 nb ix).1, ∀ j : ℕ,
        c.network.weights.getD j 0 = g1.network.weights.getD j 0 ∨
        c.network.weights.getD j 0 = g2.network.weights.getD j 0) := by
  constructor
  · intro hrnd c hc j
    obtain ⟨k, hk⟩ := breed_mem_child o rnd g1 g2 nb ix c hc
    subst hk
    have hcw : ((breedChild o rnd g1 g2 k).1.network).weights
        = (mutWeights o rnd
            (crossWeights rnd g1.network.weights g2.network.weights k).1
            (crossWeights rnd g1.network.weights g2.network.weights k).2).1 := rfl
    refine ⟨(crossWeights rnd g1.network.weights g2.network.weights k).1.getD j 0,
      crossWeights_getD rnd _ _ k j, ?_, ?_⟩
    · rw [hcw]; exact (mutWeights_getD_bounds o rnd hrange hrnd _ _ j).1
    · rw [hcw]; exact (mutWeights_getD_bounds o rnd hrange hrnd _ _ j).2
  · intro hlt c hc j
    obtain ⟨k, hk⟩ := breed_mem_child o rnd g1 g2 nb ix c hc
    subst hk
    have hcw : ((breedChild o rnd g1 g2 k).1.network).weights
        = (crossWeights rnd g1.network.weights g2.network.weights k).1 := by
      show (mutWeights o rnd _ _).1 = _
      exact mutWeights_eq_of_lt o rnd hlt _ _
    rw [hcw]
    exact crossWeights_getD rnd _ _ k j

/-- Witness for C8's amended claim at a concrete input: with all draws
equal to 1 and `mutationRate = 0`, the single child of parents with
weights `[2]` and `[3]` keeps a weight equal to one of the parents'. -/
theorem breed_mutation_bounds_witness :
    ((⟨0, ⟨[1, 1], [2]⟩⟩ : Genome).network.weights.getD 0 0 = (2 : ℚ)) ∨
    ((⟨0, ⟨[1, 1], [2]⟩⟩ : Genome).network.weights.getD 0 0 = (3 : ℚ)) := by
  have h := (breed_mutation_bounds ⟨1, [], 1, 1, 0, 0, 0, 1, -1, false, -1, 1⟩
      (fun _ => 1) ⟨0, ⟨[1, 1], [2]⟩⟩ ⟨0, ⟨[1, 1], [3]⟩⟩ 1 0 rfl (by norm_num)).2
      (fun _ => by norm_num) ⟨0, ⟨[1, 1], [2]⟩⟩
      (by norm_num [Generation.breed, breedChild, crossWeights, mutWeights]) 0
  exact h

/-! ### Ranked-insertion lemmas -/

/-- Membership in the result of `addGenome`: the new genome plus the old
ones. -/
theorem addGenome_mem (ss : ℤ) (gs : List Genome) (g y : Genome) :
    y ∈ Generation.addGenome ss gs g ↔ y = g ∨ y ∈ gs := by
  induction gs with
  | nil => simp [Generation.addGenome]
  | cons x xs ih =>
    by_cases hb : beats ss g x
    · simp [Generation.addGenome, hb]
    · simp [Generation.addGenome, hb, ih]
      tauto

/-- Generic preservation of a transitive ordering by the insertion scan:
if beating implies `R new old` and not beating implies `R old new`, the
scan inserts at a position that keeps the list `Pairwise R`. -/
theorem addGenome_pairwise_general (ss : ℤ) (R : Genome → Genome → Prop)
    (htr : ∀ a b c, R a b → R b c → R a c)
    (hbR : ∀ g x, beats ss g x = true → R g x)
    (hnbR : ∀ g x, beats ss g x = false → R x g) :
    ∀ gs g, gs.Pairwise R → (Generation.addGenome ss gs g).Pairwise R := by
  intro gs g
  induction gs with
  | nil => intro _; simp [Generation.addGenome]
  | cons x xs ih =>
    intro hs
    rw [List.pairwise_cons] at hs
    by_cases hb : beats ss g x
    · have hrw : Generation.addGenome ss (x :: xs) g = g :: x :: xs := by
        simp [Generation.addGenome, hb]
      rw [hrw, List.pairwise_cons]
      refine ⟨?_, List.pairwise_cons.mpr hs⟩
      intro y hy
      rcases List.mem_cons.mp hy with rfl | hy
      · exact hbR g y hb
      · exact htr g x y (hbR g x hb) (hs.1 y hy)
    · have hrw : Generation.addGenome ss (x :: xs) g
          = x :: Generation.addGenome ss xs g := by
        simp [Generation.addGenome, hb]
      rw [hrw, List.pairwise_cons]
      refine ⟨?_, ih hs.2⟩
      intro y hy
      rcases (addGenome_mem ss xs g y).mp hy with hyg | hy
      · rw [hyg]; exact hnbR g x (by simpa using hb)
      · exact hs.1 y hy

/-- Folding `addGenome` over any insertion sequence preserves
`Pairwise R` of the accumulator (in particular starting from `[]`). -/
theorem addGenome_foldl_pairwise (ss : ℤ) (R : Genome → Genome → Prop)
    (htr : ∀ a b c, R a b → R b c → R a c)
    (hbR : ∀ g x, beats ss g x = true → R g x)
    (hnbR : ∀ g x, beats ss g x = false → R x g) :
    ∀ (seq acc : List Genome), acc.Pairwise R →
      (seq.foldl (Generation.addGenome ss) acc).Pairwise R := by
  intro seq
  induction seq with
  | nil => intro acc h; exact h
  | cons s rest ih =>
    intro acc h
    exact ih _ (addGenome_pairwise_general ss R htr hbR hnbR acc s h)

/-- An element satisfying the scan predicate, all of whose predecessors
also satisfy it (guaranteed by the chain hypothesis), lies in the
`takeWhile` prefix. -/
theorem mem_takeWhile_of_chain (p : Genome → Bool) :
    ∀ gs : List Genome,
      gs.Pairwise (fun a b => p b = true → p a = true) →
      ∀ x ∈ gs, p x = true → x ∈ gs.takeWhile p := by
  intro gs
  induction gs with
  | nil => intro _ x hx; simp at hx
  | cons y ys ih =>
    intro hchain x hx hpx
    rw [List.pairwise_cons] at hchain
    rcases List.mem_cons.mp hx with rfl | hx'
    · rw [List.takeWhile_cons, if_pos hpx]
      exact List.mem_cons_self x _
    · have hpy : p y = true := hchain.1 x hx' hpx
      rw [List.takeWhile_cons, if_pos hpy]
      exact List.mem_cons_of_mem y (ih hchain.2 x hx' hpx)

/-- C4: ranked insertion.  Folding `addGenome` from an empty generation
over any insertion sequence yields a list that is non-increasing in
score in descending mode (`scoreSort < 0`) and non-decreasing in
ascending mode (best genome always at index 0); moreover `addGenome`
inserts exactly at the first entry the new genome strictly beats — i.e.
after the `takeWhile` prefix of entries it does not beat — and in a
sorted generation every existing entry with a score equal to the new
genome's lies in that prefix, so the new genome lands after all
equal-score entries (stable insertion). -/
theorem addGenome_sorted_stable (ss : ℤ) (seq : List Genome) :
    ((ss < 0 → (seq.foldl (Generation.addGenome ss) []).Pairwise
        (fun a b => b.score ≤ a.score)) ∧
      (0 ≤ ss → (seq.foldl (Generation.addGenome ss) []).Pairwise
        (fun a b => a.score ≤ b.score))) ∧
    (∀ (gs : List Genome) (g : Genome),
      Generation.addGenome ss gs g
        = gs.takeWhile (fun x => ! beats ss g x)
            ++ g :: gs.dropWhile (fun x => ! beats ss g x)) ∧
    (∀ (gs : List Genome) (g : Genome),
      gs.Pairwise (fun a b => beats ss b a = false) →
      ∀ x ∈ gs, x.score = g.score →
        x ∈ gs.takeWhile (fun y => ! beats ss g y)) := by
  refine ⟨⟨?_, ?_⟩, ?_, ?_⟩
  · intro hss
    refine addGenome_foldl_pairwise ss (fun a b => b.score ≤ a.score)
      (fun a b c h1 h2 => le_trans h2 h1) ?_ ?_ seq [] (List.Pairwise.nil)
    · intro g x hb
      have : x.score < g.score := by simpa [beats, if_pos hss] using hb
      exact le_of_lt this
    · intro g x hb
      have : ¬ x.score < g.score := by simpa [beats, if_pos hss] using hb
      exact le_of_not_lt this
  · intro hss
    have hss' : ¬ ss < 0 := not_lt.mpr hss
    refine addGenome_foldl_pairwise ss (fun a b => a.score ≤ b.score)
      (fun a b c h1 h2 => le_trans h1 h2) ?_ ?_ seq [] (List.Pairwise.nil)
    · intro g x hb
      have : g.score < x.score := by simpa [beats, if_neg hss'] using hb
      exact le_of_lt this
    · intro g x hb
      have : ¬ g.score < x.score := by simpa [beats, if_neg hss'] using hb
      exact le_of_not_lt this
  · intro gs g
    induction gs with
    | nil => simp [Generation.addGenome]
    | cons x xs ih =>
      by_cases hb : beats ss g x
      · simp [Generation.addGenome, hb, List.takeWhile_cons, List.dropWhile_cons]
      · simp [Generation.addGenome, hb, List.takeWhile_cons, List.dropWhile_cons, ih]
  · intro gs g hsorted x hx hscore
    have hchain : gs.Pairwise (fun a b =>
        (! beats ss g b) = true → (! beats ss g a) = true) := by
      refine hsorted.imp ?_
      intro a b hab hgb
      simp only [Bool.not_eq_true'] at hgb ⊢
      by_cases hss : ss < 0
      · have h1 : ¬ a.score < b.score := by simpa [beats, if_pos hss] using hab
        have h2 : ¬ b.score < g.score := by simpa [beats, if_pos hss] using hgb
        simpa [beats, if_pos hss] using
          not_lt.mpr (le_trans (not_lt.mp h2) (not_lt.mp h1))
      · have h1 : ¬ b.score < a.score := by simpa [beats, if_neg hss] using hab
        have h2 : ¬ g.score < b.score := by simpa [beats, if_neg hss] using hgb
        simpa [beats, if_neg hss] using
          not_lt.mpr (le_trans (not_lt.mp h1) (not_lt.mp h2))
    refine mem_takeWhile_of_chain _ gs hchain x hx ?_
    simp only [Bool.not_eq_true']
    by_cases hss : ss < 0
    · simp [beats, if_pos hss, hscore]
    · simp [beats, if_neg hss, hscore]

/-- Witness for C4 at a concrete input: folding three insertions in
descending mode yields a non-increasing list, and inserting a score-5
genome (with a distinguishable network) into the sorted generation
`[score 5, score 3]` places it after the existing score-5 entry. -/
theorem addGenome_sorted_stable_witness :
    (([⟨5, ⟨[1], []⟩⟩, ⟨3, ⟨[1], []⟩⟩, ⟨9, ⟨[1], []⟩⟩] : List Genome).foldl
        (Generation.addGenome (-1)) []).Pairwise (fun a b => b.score ≤ a.score) ∧
    Generation.addGenome (-1) [⟨5, ⟨[1], []⟩⟩, ⟨3, ⟨[1], []⟩⟩] ⟨5, ⟨[2], []⟩⟩
      = [⟨5, ⟨[1], []⟩⟩, ⟨5, ⟨[2], []⟩⟩, ⟨3, ⟨[1], []⟩⟩] := by
  constructor
  · exact (addGenome_sorted_stable (-1)
      [⟨5, ⟨[1], []⟩⟩, ⟨3, ⟨[1], []⟩⟩, ⟨9, ⟨[1], []⟩⟩]).1.1 (by decide)
  · have h := (addGenome_sorted_stable (-1) []).2.1
      [⟨5, ⟨[1], []⟩⟩, ⟨3, ⟨[1], []⟩⟩] ⟨5, ⟨[2], []⟩⟩
    rw [h]
    norm_num [beats, List.takeWhile_cons, List.dropWhile_cons]

/-! ### Serialization lemmas -/

/-- What `setSave` rebuilds from a serialized layer list: the same
neurons with the same weights, values reset to 0, ids renumbered from
`idx`. -/
def stripLayers (idx : ℕ) : List Layer → List Layer
  | [] => []
  | l :: ls => ⟨idx, l.neurons.map (fun nr => ⟨0, nr.weights⟩)⟩ :: stripLayers (idx + 1) ls

/-- Rebuilding one layer's neurons from the flat list consumes exactly
that layer's weights and reproduces them. -/
theorem mkNeurons_flat (prev : ℕ) (ns : List Neuron) (rest : List ℚ)
    (h : ∀ nr ∈ ns, nr.weights.length = prev) :
    mkNeurons prev ns.length ((ns.map Neuron.weights).flatten ++ rest)
        = ns.map (fun nr => ⟨0, nr.weights⟩) ∧
    ((ns.map Neuron.weights).flatten ++ rest).drop (ns.length * prev) = rest := by
  induction ns generalizing rest with
  | nil => simp [mkNeurons]
  | cons nr ns ih =>
    have hw : nr.weights.length = prev := h nr (List.mem_cons_self nr ns)
    have hflat : ((nr :: ns).map Neuron.weights).flatten
        = nr.weights ++ (ns.map Neuron.weights).flatten := by simp
    have htail := ih (h := fun x hx => h x (List.mem_cons_of_mem nr hx)) rest
    have ht : nr.weights.take prev = nr.weights := by
      rw [← hw]; exact List.take_length nr.weights
    have hd : (nr.weights ++ ((ns.map Neuron.weights).flatten ++ rest)).drop prev
        = (ns.map Neuron.weights).flatten ++ rest := by
      rw [← hw]; exact List.drop_left nr.weights _
    constructor
    · show mkNeurons prev (ns.length + 1) _ = _
      rw [hflat, List.append_assoc, mkNeurons]
      rw [List.take_append_of_le_length (le_of_eq hw.symm), ht, hd, htail.1]
      rfl
    · rw [hflat, List.append_assoc]
      simp only [List.length_cons]
      rw [show (ns.length + 1) * prev = prev + ns.length * prev by ring]
      rw [show (nr.weights ++ ((ns.map Neuron.weights).flatten ++ rest)).drop
              (prev + ns.length * prev)
            = ((nr.weights ++ ((ns.map Neuron.weights).flatten ++ rest)).drop
              prev).drop (ns.length * prev) from (List.drop_drop _ _ _).symm]
      rw [hd]
      exact htail.2

/-- Rebuilding all layers from the flat serialized form reproduces the
layer list up to zeroed values and renumbered ids, and consumes exactly
the flat weights. -/
theorem buildLayers_flat : ∀ (ls : List Layer) (prev idx : ℕ) (rest : List ℚ),
    chainFrom prev ls = true →
    buildLayers (ls.map fun l => l.neurons.length) prev idx (flatWeights ls ++ rest)
      = stripLayers idx ls := by
  intro ls
  induction ls with
  | nil => intro prev idx rest _; rfl
  | cons l ls ih =>
    intro prev idx rest hchain
    rw [chainFrom, Bool.and_eq_true] at hchain
    have hall : ∀ nr ∈ l.neurons, nr.weights.length = prev := by
      intro nr hnr
      have := (List.all_eq_true.mp hchain.1) nr hnr
      simpa using this
    have hflat : flatWeights (l :: ls)
        = (l.neurons.map Neuron.weights).flatten ++ flatWeights ls := by
      simp [flatWeights]
    have hmk := mkNeurons_flat prev l.neurons (flatWeights ls ++ rest) hall
    show buildLayers (l.neurons.length :: ls.map fun l => l.neurons.length)
        prev idx (flatWeights (l :: ls) ++ rest) = _
    rw [buildLayers, hflat, List.append_assoc, hmk.1, hmk.2,
      ih l.neurons.length (idx + 1) rest hchain.2]
    rfl

/-- `stripLayers` keeps per-layer neuron counts. -/
theorem stripLayers_counts : ∀ (ls : List Layer) (idx : ℕ),
    (stripLayers idx ls).map (fun l => l.neurons.length)
      = ls.map (fun l => l.neurons.length) := by
  intro ls
  induction ls with
  | nil => intro idx; rfl
  | cons l ls ih => intro idx; simp [stripLayers, ih]

/-- `stripLayers` keeps every weight list. -/
theorem stripLayers_skeleton : ∀ (ls : List Layer) (idx : ℕ),
    (stripLayers idx ls).map (fun l => l.neurons.map Neuron.weights)
      = ls.map (fun l => l.neurons.map Neuron.weights) := by
  intro ls
  induction ls with
  | nil => intro idx; rfl
  | cons l ls ih =>
    intro idx
    simp [stripLayers, ih, List.map_map]

/-- A full-length input vector replaces every input-layer value. -/
theorem overwriteValues_of_length (ns : List Neuron) (inputs : List ℚ)
    (h : inputs.length = ns.length) : overwriteValues ns inputs = inputs := by
  induction ns generalizing inputs with
  | nil =>
    cases inputs with
    | nil => rfl
    | cons x xs => simp at h
  | cons nr ns ih =>
    cases inputs with
    | nil => simp at h
    | cons x xs =>
      simp only [List.length_cons, Nat.add_right_cancel_iff] at h
      simp [overwriteValues, ih xs h]

/-- One feed-forward step only reads weights, so stripping values and
ids does not change it. -/
theorem layerValues_strip (act : ℚ → ℚ) (prev : List ℚ) (l : Layer) (idx : ℕ) :
    layerValues act prev ⟨idx, l.neurons.map (fun nr => ⟨0, nr.weights⟩)⟩
      = layerValues act prev l := by
  show (l.neurons.map _).map _ = _
  rw [List.map_map]
  rfl

/-- The feed-forward fold only reads weights, so stripping values and
ids does not change it. -/
theorem foldl_layerValues_strip (act : ℚ → ℚ) : ∀ (ls : List Layer) (idx : ℕ)
    (prev : List ℚ),
    (stripLayers idx ls).foldl (layerValues act) prev
      = ls.foldl (layerValues act) prev := by
  intro ls
  induction ls with
  | nil => intro idx prev; rfl
  | cons l ls ih =>
    intro idx prev
    show (stripLayers (idx + 1) ls).foldl (layerValues act)
        (layerValues act prev ⟨idx, l.neurons.map (fun nr => ⟨0, nr.weights⟩)⟩) = _
    rw [layerValues_strip act prev l idx, ih (idx + 1)]
    rfl

/-- C3: serialization round trip.  For a network with a valid layered
shape, `setSave (getSave n)` reproduces the per-layer neuron counts and
every weight value exactly, and therefore computes the same outputs as
`n` on every input vector of the input layer's length, for every
activation function. -/
theorem getSave_setSave_roundTrip (n : Network) (h : validShape n = true) :
    neuronCounts (Network.setSave n.getSave) = neuronCounts n ∧
    skeleton (Network.setSave n.getSave) = skeleton n ∧
    ∀ (act : ℚ → ℚ) (inputs : List ℚ), inputs.length = inputSize n →
      Network.compute act (Network.setSave n.getSave) inputs
        = Network.compute act n inputs := by
  have hb : (Network.setSave n.getSave).layers = stripLayers 0 n.layers := by
    show buildLayers (n.layers.map fun l => l.neurons.length) 0 0
        (flatWeights n.layers) = _
    rw [← List.append_nil (flatWeights n.layers)]
    exact buildLayers_flat n.layers 0 0 [] h
  refine ⟨?_, ?_, ?_⟩
  · show (Network.setSave n.getSave).layers.map _ = n.layers.map _
    rw [hb]; exact stripLayers_counts n.layers 0
  · show (Network.setSave n.getSave).layers.map _ = n.layers.map _
    rw [hb]; exact stripLayers_skeleton n.layers 0
  · intro act inputs hlen
    show Network.compute act ⟨(Network.setSave n.getSave).layers⟩ inputs
        = Network.compute act ⟨n.layers⟩ inputs
    rw [hb]
    rcases n with ⟨ls⟩
    cases ls with
    | nil => rfl
    | cons l0 rest =>
      have hlen' : inputs.length = l0.neurons.length := hlen
      show (stripLayers 1 rest).foldl (layerValues act)
          (overwriteValues (l0.neurons.map (fun nr => ⟨0, nr.weights⟩)) inputs)
        = rest.foldl (layerValues act) (overwriteValues l0.neurons inputs)
      rw [overwriteValues_of_length _ inputs (by simpa using hlen'),
        overwriteValues_of_length _ inputs hlen',
        foldl_layerValues_strip act rest 1]

/-- Witness for C3 at a concrete input: a 2-input, 1-output network with
nonzero cached neuron values and weights `[2, 3]` round-trips and
computes the same output on `[1, 2]` with the identity activation. -/
theorem getSave_setSave_roundTrip_witness :
    Network.compute (fun x => x)
        (Network.setSave (Network.getSave
          ⟨[⟨0, [⟨5, []⟩, ⟨6, []⟩]⟩, ⟨1, [⟨7, [2, 3]⟩]⟩]⟩)) [1, 2]
      = Network.compute (fun x => x)
          ⟨[⟨0, [⟨5, []⟩, ⟨6, []⟩]⟩, ⟨1, [⟨7, [2, 3]⟩]⟩]⟩ [1, 2] :=
  (getSave_setSave_roundTrip ⟨[⟨0, [⟨5, []⟩, ⟨6, []⟩]⟩, ⟨1, [⟨7, [2, 3]⟩]⟩]⟩
    (by decide)).2.2 (fun x => x) [1, 2] (by decide)

/-- Rebuilding one layer's neurons ignores weights beyond the `c * prev`
it consumes. -/
theorem mkNeurons_append (prev : ℕ) : ∀ (c : ℕ) (ws extra : List ℚ),
    c * prev ≤ ws.length →
    mkNeurons prev c (ws ++ extra) = mkNeurons prev c ws := by
  intro c
  induction c with
  | zero => intro ws extra _; rfl
  | succ c ih =>
    intro ws extra h
    have hle : prev ≤ ws.length := by
      have : (c + 1) * prev = c * prev + prev := by ring
      omega
    have hdrop : c * prev ≤ (ws.drop prev).length := by
      rw [List.length_drop]
      have : (c + 1) * prev = c * prev + prev := by ring
      omega
    show Neuron.mk 0 ((ws ++ extra).take prev)
        :: mkNeurons prev c ((ws ++ extra).drop prev) = _
    rw [List.take_append_of_le_length hle, List.drop_append_of_le_length hle,
      ih (ws.drop prev) extra hdrop]
    rfl

/-- `setSave`'s layer-building loop ignores weights beyond the total the
topology calls for. -/
theorem buildLayers_append : ∀ (cs : List ℕ) (prev idx : ℕ) (ws extra : List ℚ),
    totalWeights cs prev ≤ ws.length →
    buildLayers cs prev idx (ws ++ extra) = buildLayers cs prev idx ws := by
  intro cs
  induction cs with
  | nil => intro prev idx ws extra _; rfl
  | cons c cs ih =>
    intro prev idx ws extra h
    rw [totalWeights] at h
    have hcp : c * prev ≤ ws.length := by omega
    have hdrop : totalWeights cs c ≤ (ws.drop (c * prev)).length := by
      rw [List.length_drop]; omega
    show Layer.mk idx (mkNeurons prev c (ws ++ extra))
        :: buildLayers cs c (idx + 1) ((ws ++ extra).drop (c * prev)) = _
    rw [mkNeurons_append prev c ws extra hcp,
      List.drop_append_of_le_length hcp, ih c (idx + 1) _ extra hdrop]
    rfl

/-- `overwriteValues` never reads inputs beyond the neuron count. -/
theorem overwriteValues_take (ns : List Neuron) : ∀ inputs : List ℚ,
    overwriteValues ns (inputs.take ns.length) = overwriteValues ns inputs := by
  induction ns with
  | nil => intro inputs; rfl
  | cons nr ns ih =>
    intro inputs
    cases inputs with
    | nil => rfl
    | cons x xs =>
      show overwriteValues (nr :: ns) (x :: xs.take ns.length) = _
      show x :: overwriteValues ns (xs.take ns.length) = x :: overwriteValues ns xs
      rw [ih xs]

/-- C7, amended: neither operation reports an error.  `setSave` accepts
a save with surplus weights and silently ignores the excess — the result
equals `setSave` of the exact-length save; `compute` accepts an input
vector of any length and silently ignores entries beyond the input
layer's size — the result equals `compute` of the truncated inputs (and
for too-short inputs the remaining input neurons simply keep their old
values). -/
theorem setSave_compute_lenient :
    (∀ (s : Save) (extra : List ℚ), s.weights.length = totalWeights s.neurons 0 →
      Network.setSave ⟨s.neurons, s.weights ++ extra⟩ = Network.setSave s) ∧
    (∀ (act : ℚ → ℚ) (n : Network) (inputs : List ℚ),
      Network.compute act n (inputs.take (inputSize n))
        = Network.compute act n inputs) := by
  constructor
  · intro s extra h
    show Network.mk (buildLayers s.neurons 0 0 (s.weights ++ extra))
        = Network.mk (buildLayers s.neurons 0 0 s.weights)
    rw [buildLayers_append s.neurons 0 0 s.weights extra (le_of_eq h.symm)]
  · intro act n inputs
    rcases n with ⟨ls⟩
    cases ls with
    | nil => rfl
    | cons l0 rest =>
      show rest.foldl (layerValues act)
          (overwriteValues l0.neurons (inputs.take l0.neurons.length))
        = rest.foldl (layerValues act) (overwriteValues l0.neurons inputs)
      rw [overwriteValues_take l0.neurons inputs]

/-- Witness for C7's amended claim at a concrete input: the topology
`[1, 1]` calls for one weight; appending a second weight leaves `setSave`
unchanged, and a length-2 input to the resulting 1-input network
computes as its truncation does. -/
theorem setSave_compute_lenient_witness :
    Network.setSave ⟨[1, 1], [5] ++ [9]⟩ = Network.setSave ⟨[1, 1], [5]⟩ ∧
    Network.compute (fun x => x) (Network.setSave ⟨[1, 1], [5]⟩)
        ([3, 4].take (inputSize (Network.setSave ⟨[1, 1], [5]⟩)))
      = Network.compute (fun x => x) (Network.setSave ⟨[1, 1], [5]⟩) [3, 4] :=
  ⟨setSave_compute_lenient.1 ⟨[1, 1], [5]⟩ [9] rfl,
    setSave_compute_lenient.2 (fun x => x) (Network.setSave ⟨[1, 1], [5]⟩) [3, 4]⟩

/-! ### Population-size lemmas for generateNextGeneration -/

/-- The elitism loop pushes at most one genome per remaining iteration. -/
theorem eliteLoop_length_le (gs : List Genome) (pop : ℕ) : ∀ (k i : ℕ)
    (acc r : List Save), eliteLoop gs pop k i acc = .ok r →
    r.length ≤ acc.length + k := by
  intro k
  induction k with
  | zero =>
    intro i acc r h
    simp only [eliteLoop, Except.ok.injEq] at h
    subst h
    omega
  | succ k ih =>
    intro i acc r h
    simp only [eliteLoop] at h
    by_cases hlt : acc.length < pop
    · rw [if_pos hlt] at h
      cases hg : gs.get? i with
      | none => simp only [hg] at h; exact absurd h (by simp)
      | some g =>
        simp only [hg] at h
        have := ih (i + 1) (acc ++ [g.network]) r h
        simp only [List.length_append, List.length_cons, List.length_nil] at this
        omega
    · rw [if_neg hlt] at h
      have := ih (i + 1) acc r h
      omega

/-- The random-injection loop pushes at most one network per remaining
iteration. -/
theorem randomLoop_length_le (gs : List Genome) (pop : ℕ) (rnd : ℕ → ℚ) :
    ∀ (k : ℕ) (acc : List Save) (ix : ℕ) (r : List Save) (ix' : ℕ),
      randomLoop gs pop rnd k acc ix = .ok (r, ix') →
      r.length ≤ acc.length + k := by
  intro k
  induction k with
  | zero =>
    intro acc ix r ix' h
    simp only [randomLoop, Except.ok.injEq, Prod.mk.injEq] at h
    rcases h with ⟨h1, _⟩
    subst h1
    omega
  | succ k ih =>
    intro acc ix r ix' h
    simp only [randomLoop] at h
    cases hg : gs.head? with
    | none => simp only [hg] at h; exact absurd h (by simp)
    | some g0 =>
      simp only [hg] at h
      by_cases hlt : acc.length < pop
      · rw [if_pos hlt] at h
        have := ih _ _ r ix' h
        simp only [List.length_append, List.length_cons, List.length_nil] at this
        omega
      · rw [if_neg hlt] at h
        have := ih _ _ r ix' h
        omega

/-- The child-pushing loop, entered strictly below the population
target, early-returns at exactly the target and otherwise stays strictly
below it. -/
theorem pushChildren_spec (pop : ℕ) : ∀ (cs : List Genome) (acc : List Save),
    acc.length < pop →
    (∀ r, pushChildren pop cs acc = .inl r → r.length = pop) ∧
    (∀ r, pushChildren pop cs acc = .inr r → r.length < pop) := by
  intro cs
  induction cs with
  | nil =>
    intro acc hacc
    refine ⟨?_, ?_⟩
    · intro r h; exact absurd h (by simp [pushChildren])
    · intro r h
      simp only [pushChildren, Sum.inr.injEq] at h
      subst h; exact hacc
  | cons c cs ih =>
    intro acc hacc
    have hlen : (acc ++ [c.network]).length = acc.length + 1 := by simp
    by_cases hp : pop ≤ (acc ++ [c.network]).length
    · refine ⟨?_, ?_⟩
      · intro r h
        simp only [pushChildren, if_pos hp, Sum.inl.injEq] at h
        subst h; omega
      · intro r h
        simp only [pushChildren, if_pos hp] at h
        exact absurd h (by simp)
    · have hlt : (acc ++ [c.network]).length < pop := not_le.mp hp
      refine ⟨?_, ?_⟩
      · intro r h
        simp only [pushChildren, if_neg hp] at h
        exact (ih _ hlt).1 r h
      · intro r h
        simp only [pushChildren, if_neg hp] at h
        exact (ih _ hlt).2 r h

/-- The breeding inner loop, entered strictly below the population
target, early-returns at exactly the target and otherwise completes
strictly below it. -/
theorem innerFor_spec (o : Opts) (rnd : ℕ → ℚ) (gs : List Genome)
    (pop mx : ℕ) : ∀ (k i : ℕ) (acc : List Save) (ix : ℕ),
    acc.length < pop →
    (∀ r, innerFor o rnd gs pop mx k i acc ix = .ok (.inl r) → r.length = pop) ∧
    (∀ r ix', innerFor o rnd gs pop mx k i acc ix = .ok (.inr (r, ix')) →
      r.length < pop) := by
  intro k
  induction k with
  | zero =>
    intro i acc ix hacc
    refine ⟨?_, ?_⟩
    · intro r h; exact absurd h (by simp [innerFor])
    · intro r ix' h
      simp only [innerFor, Except.ok.injEq, Sum.inr.injEq, Prod.mk.injEq] at h
      rcases h with ⟨hr, _⟩
      subst hr; exact hacc
  | succ k ih =>
    intro i acc ix hacc
    refine ⟨?_, ?_⟩ <;> intro r
    · intro h
      simp only [innerFor] at h
      cases hgi : gs.get? i with
      | none => simp only [hgi] at h; exact absurd h (by simp)
      | some gi =>
        cases hgm : gs.get? mx with
        | none => simp only [hgi, hgm] at h; exact absurd h (by simp)
        | some gmx =>
          simp only [hgi, hgm] at h
          cases hpc : pushChildren pop
              (Generation.breed o rnd gi gmx
                (if 0 < o.nbChild then o.nbChild.toNat else 1) ix).1 acc with
          | inl r0 =>
            simp only [hpc, Except.ok.injEq, Sum.inl.injEq] at h
            subst h
            exact (pushChildren_spec pop _ acc hacc).1 r0 hpc
          | inr acc1 =>
            simp only [hpc] at h
            have hacc1 : acc1.length < pop :=
              (pushChildren_spec pop _ acc hacc).2 acc1 hpc
            exact (ih (i + 1) acc1 _ hacc1).1 r h
    · intro ix' h
      simp only [innerFor] at h
      cases hgi : gs.get? i with
      | none => simp only [hgi] at h; exact absurd h (by simp)
      | some gi =>
        cases hgm : gs.get? mx with
        | none => simp only [hgi, hgm] at h; exact absurd h (by simp)
        | some gmx =>
          simp only [hgi, hgm] at h
          cases hpc : pushChildren pop
              (Generation.breed o rnd gi gmx
                (if 0 < o.nbChild then o.nbChild.toNat else 1) ix).1 acc with
          | inl r0 => simp only [hpc] at h; exact absurd h (by simp)
          | inr acc1 =>
            simp only [hpc] at h
            have hacc1 : acc1.length < pop :=
              (pushChildren_spec pop _ acc hacc).2 acc1 hpc
            exact (ih (i + 1) acc1 _ hacc1).2 r ix' h

/-- Partial correctness of the breeding loop: entered strictly below the
population target, any list it returns has length exactly the target. -/
theorem breedLoop_spec (o : Opts) (rnd : ℕ → ℚ) (gs : List Genome) (pop : ℕ) :
    ∀ (fuel mx : ℕ) (acc : List Save) (ix : ℕ), acc.length < pop →
      ∀ r, breedLoop o rnd gs pop fuel mx acc ix = .ok r → r.length = pop := by
  intro fuel
  induction fuel with
  | zero => intro mx acc ix _ r h; exact absurd h (by simp [breedLoop])
  | succ fuel ih =>
    intro mx acc ix hacc r h
    simp only [breedLoop] at h
    cases hin : innerFor o rnd gs pop mx mx 0 acc ix with
    | error e => simp only [hin] at h; exact absurd h (by simp)
    | ok v =>
      cases v with
      | inl r0 =>
        simp only [hin, Except.ok.injEq] at h
        subst h
        exact (innerFor_spec o rnd gs pop mx mx 0 acc ix hacc).1 r0 hin
      | inr p =>
        rcases p with ⟨acc1, ix1⟩
        simp only [hin] at h
        have hacc1 : acc1.length < pop :=
          (innerFor_spec o rnd gs pop mx mx 0 acc ix hacc).2 acc1 ix1 hin
        exact ih _ acc1 ix1 hacc1 r h

/-- C1, amended: whenever the rounded elitism and random-injection
shares together fall short of `populationSize` (which the original
hypothesis `elitism + randomBehaviour ≤ 1` does not guarantee at the
boundary, by rounding), the construction never exceeds
`populationSize` at any of its three stages — the elitism stage ends
strictly below it, the random-injection stage ends strictly below it,
and whenever `generateNextGeneration` returns, the returned population
has length exactly `populationSize`. -/
theorem generateNextGeneration_length (o : Opts) (rnd : ℕ → ℚ)
    (gs : List Genome)
    (h : (jsRound (o.elitism * o.population)).toNat
        + (jsRound (o.randomBehaviour * o.population)).toNat < o.population) :
    (∀ s1, eliteLoop gs o.population
        (jsRound (o.elitism * o.population)).toNat 0 [] = .ok s1 →
      s1.length < o.population) ∧
    (∀ s1 s2 ix, eliteLoop gs o.population
        (jsRound (o.elitism * o.population)).toNat 0 [] = .ok s1 →
      randomLoop gs o.population rnd
        (jsRound (o.randomBehaviour * o.population)).toNat s1 0 = .ok (s2, ix) →
      s2.length < o.population) ∧
    (∀ (fuel : ℕ) (l : List Save),
      Generation.generateNextGeneration o rnd gs fuel = .ok l →
      l.length = o.population) := by
  have h1 : ∀ s1, eliteLoop gs o.population
      (jsRound (o.elitism * o.population)).toNat 0 [] = .ok s1 →
      s1.length < o.population := by
    intro s1 hs1
    have := eliteLoop_length_le gs o.population _ 0 [] s1 hs1
    simp only [List.length_nil] at this
    omega
  have h2 : ∀ s1 s2 ix, eliteLoop gs o.population
      (jsRound (o.elitism * o.population)).toNat 0 [] = .ok s1 →
      randomLoop gs o.population rnd
        (jsRound (o.randomBehaviour * o.population)).toNat s1 0 = .ok (s2, ix) →
      s2.length < o.population := by
    intro s1 s2 ix hs1 hs2
    have ha := eliteLoop_length_le gs o.population _ 0 [] s1 hs1
    have hb := randomLoop_length_le gs o.population rnd _ s1 0 s2 ix hs2
    simp only [List.length_nil] at ha
    omega
  refine ⟨h1, h2, ?_⟩
  intro fuel l hl
  simp only [Generation.generateNextGeneration] at hl
  cases he : eliteLoop gs o.population
      (jsRound (o.elitism * o.population)).toNat 0 [] with
  | error e => simp only [he] at hl; exact absurd hl (by simp)
  | ok s1 =>
    simp only [he] at hl
    cases hr : randomLoop gs o.population rnd
        (jsRound (o.randomBehaviour * o.population)).toNat s1 0 with
    | error e => simp only [hr] at hl; exact absurd hl (by simp)
    | ok p =>
      rcases p with ⟨s2, ix⟩
      simp only [hr] at hl
      exact breedLoop_spec o rnd gs o.population fuel 0 s2 ix
        (h2 s1 s2 ix he hr) l hl

/-- Witness for C1's amended claim at a concrete input: population 3,
both rates 0 (rounded shares 0 + 0 < 3), three scored genomes; the call
returns and the returned population has length exactly 3. -/
theorem generateNextGeneration_length_witness :
    ([⟨[1], []⟩, ⟨[1], []⟩, ⟨[1], []⟩] : List Save).length = 3 :=
  (generateNextGeneration_length ⟨1, [1], 1, 3, 0, 0, 0, 0, -1, false, -1, 1⟩
      (fun _ => 0) [⟨3, ⟨[1], []⟩⟩, ⟨2, ⟨[1], []⟩⟩, ⟨1, ⟨[1], []⟩⟩]
      (by norm_num [jsRound])).2.2 20 [⟨[1], []⟩, ⟨[1], []⟩, ⟨[1], []⟩]
    (by norm_num [Generation.generateNextGeneration, jsRound, eliteLoop,
      randomLoop, breedLoop, innerFor, pushChildren, Generation.breed,
      breedChild, crossWeights, mutWeights, populateWeights])

/-- The retention trim leaves at most `historic + 1` generations when
`historic` is finite (not the sentinel `-1`). -/
theorem trimHistoric_length (o : Opts) (gens : List Generation)
    (hfin : o.historic ≠ -1) :
    (trimHistoric o gens).length ≤ (o.historic + 1).toNat := by
  unfold trimHistoric
  split_ifs with hc
  · rcases hc with ⟨-, hlt⟩
    rw [List.length_drop]
    omega
  · have hle : ¬ ((o.historic + 1 : ℤ) < gens.length) := fun hlt => hc ⟨hfin, hlt⟩
    omega

/-- C6: retention bound.  For every finite `historic` depth, every
successful `BirdBrain.nextGeneration` call leaves the history with at
most `historic + 1` generations — hence after any number of
population-producing calls the bound holds. -/
theorem nextGeneration_retention_bound (o : Opts) (rnd : ℕ → ℚ) (fuel : ℕ)
    (gens : List Generation) (nns : List Network) (gens' : List Generation)
    (hfin : o.historic ≠ -1)
    (h : BirdBrain.nextGeneration o rnd fuel gens = .ok (nns, gens')) :
    gens'.length ≤ (o.historic + 1).toNat := by
  simp only [BirdBrain.nextGeneration] at h
  cases hp : produceSaves o rnd fuel gens with
  | error e => simp only [hp] at h; exact absurd h (by simp)
  | ok p =>
    rcases p with ⟨saves, gens1⟩
    simp only [hp] at h
    by_cases hlow : o.lowHistoric ∧ 2 ≤ gens1.length
    · rw [if_pos hlow] at h; exact absurd h (by simp)
    · rw [if_neg hlow] at h
      simp only [Except.ok.injEq, Prod.mk.injEq] at h
      rcases h with ⟨-, h2⟩
      subst h2
      exact trimHistoric_length o gens1 hfin

/-- Witness for C6 at a concrete input: `historic = 0`, empty history;
the first call produces a population and leaves exactly one generation,
within the bound `historic + 1 = 1`. -/
theorem nextGeneration_retention_bound_witness :
    ([⟨[]⟩] : List Generation).length ≤ ((0 : ℤ) + 1).toNat :=
  nextGeneration_retention_bound ⟨1, [], 1, 1, 0, 0, 0, 0, 0, false, -1, 1⟩
    (fun _ => 0) 5 []
    [⟨[⟨0, [⟨0, []⟩]⟩, ⟨1, [⟨0, [-1]⟩]⟩]⟩] [⟨[]⟩] (by decide)
    (by norm_num [BirdBrain.nextGeneration, produceSaves,
      Generations.firstGeneration, firstGenLoop, Network.perceptronGeneration,
      populateNeurons, populateWeights, buildHiddenLayers, Network.getSave,
      flatWeights, Network.setSave, buildLayers, mkNeurons, trimHistoric,
      List.range_succ, List.range_zero])
